import Mathlib

/-!
Verification development for the goweb HTTP request-dispatch core.

This file gives a shallow embedding of the core of the repository:

* `Context.Next` / `Context.Abort` (context.go): the middleware chain runner,
  modelled as a fuel-indexed interpreter over handler bodies that may call
  `next()`, call `abort()`, panic, or do unrelated work;
* the route-resolution scan of `Engine.ServeHTTP` and the registration
  surface of `RouterGroup` (router.go);
* `safelyHandle` with its two nested deferred recovery scopes;
* the admission-control `select` over the capacity-5 permit channel;
* `wrapGzip` / `GzipMiddleware` (context.go);
* the Go-slice backing-array semantics needed to reason about
  `RouterGroup.Group` / `RouterGroup.Use` aliasing.

Theorems about the spec's claims follow the definitions.
-/

set_option maxHeartbeats 1000000

namespace Goweb

/-! ### The middleware chain runner (context.go, `Context.Next` / `Context.Abort`)

A handler body is modelled as a finite list of primitive commands: calling
`c.Next()`, calling `c.Abort()`, panicking, or doing work that does not touch
the chain state.  The observable chain state is the cursor `index` (an `Int`,
since the dispatcher initialises it to `-1`) and a `trace` recording, in
order, the position of every handler invocation performed by the loop in
`Context.Next`. -/

inductive Cmd where
  | next : Cmd
  | abort : Cmd
  | panic : Cmd
  | work : Cmd
deriving DecidableEq

/-- `Context.Abort` (context.go line 33) sets `c.index = 10000000000000`. -/
def abortSentinel : Int := 10000000000000

structure CState where
  index : Int
  trace : List Nat
deriving DecidableEq

/-- Result of running Go code that may panic: normal return, a propagating
panic, or fuel exhaustion of the interpreter (never reached with enough
fuel). -/
inductive Res where
  | ok : CState → Res
  | panicked : CState → Res
  | out : Res
deriving DecidableEq

/-- Interpreter jobs: run the remaining commands of a handler body, or run the
`for c.index < len(c.handlers)` loop of `Context.Next` (context.go lines
26-29). -/
inductive Job where
  | cmds : List Cmd → CState → Job
  | loop : CState → Job

/-- Fuel-indexed interpreter for the chain runner.  `Job.loop s` is the body
of `Context.Next` after the initial `c.index++`: while the cursor indexes a
valid position it invokes the handler there (recording the position in the
trace) and then increments the cursor.  `Job.cmds` runs a handler body:
`Cmd.next` performs `c.index++` then enters the loop, `Cmd.abort` sets the
cursor to `abortSentinel`, `Cmd.panic` aborts the body with a propagating
panic, `Cmd.work` does nothing to the chain state. -/
def interp (hs : List (List Cmd)) : Nat → Job → Res
  | _, Job.cmds [] s => Res.ok s
  | 0, _ => Res.out
  | fuel + 1, Job.cmds (c :: cs) s =>
    match c with
    | Cmd.work => interp hs fuel (Job.cmds cs s)
    | Cmd.abort => interp hs fuel (Job.cmds cs { s with index := abortSentinel })
    | Cmd.panic => Res.panicked s
    | Cmd.next =>
      match interp hs fuel (Job.loop { s with index := s.index + 1 }) with
      | Res.ok s' => interp hs fuel (Job.cmds cs s')
      | r => r
  | fuel + 1, Job.loop s =>
    if h : 0 ≤ s.index ∧ s.index < (hs.length : Int) then
      match interp hs fuel
          (Job.cmds (hs.get ⟨s.index.toNat, by omega⟩)
            { s with trace := s.trace ++ [s.index.toNat] }) with
      | Res.ok s' => interp hs fuel (Job.loop { s' with index := s'.index + 1 })
      | r => r
    else Res.ok s

/-- The chain state a job starts from. -/
def jstate : Job → CState
  | Job.cmds _ s => s
  | Job.loop s => s

/-- Running the remaining commands of a handler body. -/
def runCmds (hs : List (List Cmd)) (fuel : Nat) (cs : List Cmd) (s : CState) : Res :=
  interp hs fuel (Job.cmds cs s)

/-- The loop of `Context.Next` (after the initial increment). -/
def nextLoop (hs : List (List Cmd)) (fuel : Nat) (s : CState) : Res :=
  interp hs fuel (Job.loop s)

/-- `Context.Next` (context.go lines 24-30): `c.index++` followed by the
invocation loop. -/
def ctxNext (hs : List (List Cmd)) (fuel : Nat) (s : CState) : Res :=
  nextLoop hs fuel { s with index := s.index + 1 }

/-- The dispatcher's single initial `c.Next()` call: `Engine.ServeHTTP` sets
`context.index = -1` and `safelyHandle` calls `c.Next()` once. -/
def dispatchChain (hs : List (List Cmd)) (fuel : Nat) : Res :=
  ctxNext hs fuel ⟨-1, []⟩

/-- A command that neither aborts nor panics. -/
def nwCmd : Cmd → Bool
  | Cmd.next => true
  | Cmd.work => true
  | _ => false

/-- A chain in which no handler calls `abort()` and no handler panics. -/
def nwChain (hs : List (List Cmd)) : Bool :=
  hs.all (fun b => b.all nwCmd)

/-! ### Route table and route resolution (router.go, unnamed engine file)

A `node` carries a literal `path`, an optional compiled regular expression
(modelled as its match function `String → Bool`), and a handler chain
(handlers identified by `Nat` ids).  A `methodTree` pairs a method with a
node; `Engine.trees` is the registration-ordered list of entries. -/

structure NodeR where
  path : String
  rx : Option (String → Bool)
  handlers : List Nat

structure MTree where
  method : String
  root : NodeR

/-- The path test of the scan in `Engine.ServeHTTP`:
`v.root.path == path || v.root.regexp != nil && v.root.regexp.MatchString(path)`. -/
def nodeMatches (nd : NodeR) (path : String) : Bool :=
  (nd.path == path) ||
    (match nd.rx with
     | some r => r path
     | none => false)

/-- The linear route-resolution scan of `Engine.ServeHTTP`: iterate over the
trees in registration order; when the path test succeeds and the method also
matches, take that entry's handlers and stop; otherwise keep scanning.
`handlers` stays `nil` (here `none`) when no entry matches. -/
def resolveGo : List MTree → String → String → Option (List Nat)
  | [], _, _ => none
  | v :: rest, method, path =>
    if nodeMatches v.root path then
      if v.method == method then some v.root.handlers
      else resolveGo rest method path
    else resolveGo rest method path

/-- Modelled from the spec's words (spec §4.1), for comparison with
`resolveGo`: an entry's matcher is its compiled pattern when it has one
(entries registered through `RegexMatch`), otherwise its literal path;
a literal matcher accepts exactly the equal path, a pattern matcher accepts
exactly the paths its match function accepts. -/
def specAccept (nd : NodeR) (path : String) : Bool :=
  match nd.rx with
  | some r => r path
  | none => nd.path == path

/-- Modelled from the spec's words (spec §4.1): the first entry in
registration order whose method equals the request method and whose matcher
accepts the path; `none` when there is no such entry. -/
def specResolve (trees : List MTree) (method path : String) : Option (List Nat) :=
  (trees.find? (fun v => v.method == method && specAccept v.root path)).map
    (fun v => v.root.handlers)

/-- Registration invariant: entries made by `GET/POST/PUT/DELETE` have no
compiled pattern, and entries made by `RegexMatch` leave the literal `path`
at its zero value `""` (router.go lines 17-35). -/
def wellRegistered (trees : List MTree) : Prop :=
  ∀ v ∈ trees, v.root.rx = none ∨ v.root.path = ""

/-- `RouterGroup.GET` and friends (router.go): register a literal entry. -/
def mkLiteral (method path : String) (chain : List Nat) : MTree :=
  ⟨method, ⟨path, none, chain⟩⟩

/-- `RouterGroup.RegexMatch` (router.go line 33): registers a `"GET"` entry
whose node has a compiled pattern and a zero-value literal path. -/
def mkRegex (r : String → Bool) (chain : List Nat) : MTree :=
  ⟨"GET", ⟨"", some r, chain⟩⟩

/-! ### `safelyHandle` and the dispatch path (unnamed engine file)

The per-request dispatch state records the `Context`'s error slot, the bytes
written to the current response sink, and the status code written with
`WriteHeader`.  The two widget-manager hooks, form parsing, and the handler
chain are external effects, abstracted as parameters of a `World`; the
dispatcher records which of the pre-hook / chain / post-hook ran in an event
list that the external effects cannot touch. -/

structure DCtx where
  err : Option String
  written : List String
  status : Option Nat
deriving DecidableEq

/-- Outcome of calling into Go code that may panic: a normal return with the
mutated context, or a propagating panic carrying its description and the
context as mutated so far. -/
inductive HFate where
  | ok : DCtx → HFate
  | panic : String → DCtx → HFate
deriving DecidableEq

inductive DEvent where
  | evPre : DEvent
  | evChain : DEvent
  | evPost : DEvent
deriving DecidableEq

/-- The external effects of one request: the widget manager's two hooks, the
outcome of `c.Request.ParseForm()` (`some e` meaning it returned error `e`,
which `safelyHandle` turns into a panic), and the behaviour of the resolved
handler chain under `c.Next()`. -/
structure World where
  pre : DCtx → HFate
  post : DCtx → HFate
  parseForm : Option String
  chain : DCtx → HFate

/-- The straight-line body of `safelyHandle` (between the two `defer`s and
the end): call `Pre_Process`; when no chain was resolved set the
`page not found` error and write a 404 status; otherwise parse the form
(panicking on a parse error) and call `c.Next()`.  Returns the fate of the
body together with the events it performed. -/
def runBody (w : World) (hasHandlers : Bool) (c : DCtx) : HFate × List DEvent :=
  match w.pre c with
  | HFate.panic m c' => (HFate.panic m c', [DEvent.evPre])
  | HFate.ok c1 =>
    if hasHandlers = false then
      (HFate.ok { c1 with err := some "page not found", status := some 404 },
        [DEvent.evPre])
    else
      match w.parseForm with
      | some e => (HFate.panic e c1, [DEvent.evPre])
      | none =>
        match w.chain c1 with
        | HFate.ok c2 => (HFate.ok c2, [DEvent.evPre, DEvent.evChain])
        | HFate.panic m c2 => (HFate.panic m c2, [DEvent.evPre, DEvent.evChain])

/-- The recovery step of the inner deferred scope of `safelyHandle`: when the
body panicked, `recover()` yields the panic value and its description is
recorded as the Context's terminal error.  The result is the context the
inner scope then passes to `Post_Process`. -/
def postArg (f : HFate) : DCtx :=
  match f with
  | HFate.ok c => c
  | HFate.panic m c => { c with err := some m }

/-- `safelyHandle` (unnamed engine file, lines 121-150): run the body; the
inner deferred scope recovers any body panic into `c.Err` and then always
calls `Post_Process`; the outer deferred scope recovers a panic escaping the
inner scope (only a `Post_Process` panic can) and writes its raw description
to the response sink.  The returned value is the final context and the event
list; the absence of a panic alternative in the return type reflects that no
panic escapes `safelyHandle`. -/
def safelyHandle (w : World) (hasHandlers : Bool) (c : DCtx) : DCtx × List DEvent :=
  let b := runBody w hasHandlers c
  match w.post (postArg b.1) with
  | HFate.ok c2 => (c2, b.2 ++ [DEvent.evPost])
  | HFate.panic m c2 =>
    ({ c2 with written := c2.written ++ [m] }, b.2 ++ [DEvent.evPost])

/-- `Engine.ServeHTTP` (unnamed engine file, lines 99-119) after the
1-second/permit race, with the race outcome abstracted as `admitted`: an
admitted request resolves the route and runs `safelyHandle`; a shed request
only writes the literal `server overload` to the response sink and performs
no further processing. -/
def serveHTTP (admitted : Bool) (w : World) (trees : List MTree)
    (method path : String) (c : DCtx) : DCtx × List DEvent :=
  if admitted then
    safelyHandle w (resolveGo trees method path).isSome c
  else
    ({ c with written := c.written ++ ["server overload"] }, [])

/-! ### Gzip compression middleware (context.go, lines 89-121)

Only the identity of the Context's response sink, the `Content-Encoding`
header, and whether the gzip writer was closed matter to claim C5. -/

inductive SinkId where
  | orig : SinkId
  | gzWrap : SinkId
deriving DecidableEq

structure GzCtx where
  writer : SinkId
  contentEncoding : Option String
  gzClosed : Bool
deriving DecidableEq

/-- Outcome of running the inner chain (`c.Next()`) from the middleware. -/
inductive GFate where
  | ok : GzCtx → GFate
  | panic : String → GzCtx → GFate
deriving DecidableEq

/-- `wrapGzip` (context.go lines 89-100): set the `Content-Encoding` header,
build the gzip writer wrapping the current sink, and install the wrapper as
`c.Writer`.  The returned cleanup function closes the gzip writer; it does
not touch `c.Writer`. -/
def wrapGzip (c : GzCtx) : GzCtx :=
  { c with contentEncoding := some "gzip", writer := SinkId.gzWrap, gzClosed := false }

/-- The cleanup closure returned by `wrapGzip`: `gw.Close()` flushes the
remaining compressed data and marks the gzip writer closed.  `c.Writer` is
left pointing at the wrapper. -/
def gzCleanup (c : GzCtx) : GzCtx :=
  { c with gzClosed := true }

/-- `GzipMiddleware` (context.go lines 103-111): when the client does not
advertise gzip, just run the rest of the chain; otherwise install the
wrapper, defer the cleanup, and run the rest of the chain — the deferred
cleanup runs both on normal return and while unwinding a panic, which then
keeps propagating. -/
def GzipMiddleware (acceptsGzip : Bool) (inner : GzCtx → GFate) (c : GzCtx) : GFate :=
  if acceptsGzip = false then inner c
  else
    match inner (wrapGzip c) with
    | GFate.ok c2 => GFate.ok (gzCleanup c2)
    | GFate.panic m c2 => GFate.panic m (gzCleanup c2)

/-! ### Go slice semantics for `RouterGroup.Group` / `Use` (router.go)

To reason about shared mutable backing we model Go slices against an explicit
store of backing arrays.  A backing array is a list whose length is its
capacity; a slice is an array id plus a length (all slices in this API start
at offset 0, being built by `append` from `nil`).  `append` writes in place
when spare capacity remains, otherwise allocates a fresh array; the amount of
spare capacity the runtime grants a fresh allocation is arbitrary, so the
allocation padding is a parameter that the theorems quantify over. -/

structure SliceV where
  arr : Nat
  len : Nat
deriving DecidableEq

structure Mem (α : Type) where
  arrays : List (List α)
deriving DecidableEq

/-- The elements a slice sees. -/
def sliceView {α : Type} (m : Mem α) (s : SliceV) : List α :=
  (m.arrays.getD s.arr []).take s.len

/-- `append(T(nil), xs...)`: allocate a fresh backing array holding `xs`
followed by arbitrary spare capacity `pad`, and return a slice over it. -/
def allocSlice {α : Type} (m : Mem α) (xs pad : List α) : Mem α × SliceV :=
  (⟨m.arrays ++ [xs ++ pad]⟩, ⟨m.arrays.length, xs.length⟩)

/-- Overwrite positions `i ..` of a backing array with `xs` (capacity
unchanged). -/
def writeAt {α : Type} (a : List α) (i : Nat) (xs : List α) : List α :=
  a.take i ++ xs ++ a.drop (i + xs.length)

/-- `append(s, xs...)` on a non-nil slice: reuse the backing array when the
new length fits its capacity (mutating it in place — this is the aliasing
hazard), otherwise allocate a fresh array with arbitrary spare capacity. -/
def appendS {α : Type} (m : Mem α) (s : SliceV) (xs pad : List α) : Mem α × SliceV :=
  let a := m.arrays.getD s.arr []
  if s.len + xs.length ≤ a.length then
    (⟨m.arrays.set s.arr (writeAt a s.len xs)⟩, ⟨s.arr, s.len + xs.length⟩)
  else
    allocSlice m ((a.take s.len) ++ xs) pad

/-- A `RouterGroup`'s observable state is its `Handlers` slice. -/
structure GroupV where
  Handlers : SliceV
deriving DecidableEq

/-- `RouterGroup.Group` (router.go lines 10-15): the child's `Handlers` is
`append(HandlersChain(nil), group.Handlers...)` — a fresh copy. -/
def groupChild {α : Type} (m : Mem α) (g : GroupV) (pad : List α) : Mem α × GroupV :=
  let r := allocSlice m (sliceView m g.Handlers) pad
  (r.1, ⟨r.2⟩)

/-- `RouterGroup.Use` (router.go lines 37-39):
`group.Handlers = append(group.Handlers, middleware...)`. -/
def useG {α : Type} (m : Mem α) (g : GroupV) (mw pad : List α) : Mem α × GroupV :=
  let r := appendS m g.Handlers mw pad
  (r.1, ⟨r.2⟩)

/-- The chain built at registration time by `GET/POST/PUT/DELETE/RegexMatch`
(router.go lines 17-35):
`append(append(HandlersChain(nil), group.Handlers...), handler)` — a fresh
copy of the group's handlers, then the terminal handler appended. -/
def registerChain {α : Type} (m : Mem α) (g : GroupV) (h : α) (pad1 pad2 : List α) :
    Mem α × SliceV :=
  let r1 := allocSlice m (sliceView m g.Handlers) pad1
  appendS r1.1 r1.2 [h] pad2

/-! ### Admission control (unnamed engine file, `Default` and `ServeHTTP`)

`Default` creates `ConcurrenceNumSem = make(chan int, 5)`.  `ServeHTTP`
races sending a token into the channel against a 1-second timer: winning the
race admits the request (the token stays in the channel while `safelyHandle`
runs, and is received back — released — right after it returns, which it
always does since no panic escapes it); losing the race sheds the request
with the literal body `server overload`.  We model a set of concurrent
requests as an interleaved transition system over their phases plus the
number of tokens currently in the channel. -/

inductive RPhase where
  | racing : RPhase
  | processing : RPhase
  | doneOk : RPhase
  | doneShed : String → RPhase
deriving DecidableEq

structure AdmState where
  reqs : List RPhase
  occupied : Nat
deriving DecidableEq

/-- `make(chan int, 5)` in `Default`. -/
def semCap : Nat := 5

/-- The initial state of `k` concurrent requests, none yet admitted. -/
def admInit (k : Nat) : AdmState :=
  ⟨List.replicate k RPhase.racing, 0⟩

/-- One interleaving step: a racing request whose channel send succeeds
(capacity not exhausted) enters processing holding a permit; a racing
request whose timer fires first is shed with the literal overload body; a
processing request finishes `safelyHandle` and immediately releases its
permit. -/
inductive AdmStep : AdmState → AdmState → Prop
  | acquire (s : AdmState) (i : Nat) (h : s.reqs.get? i = some RPhase.racing)
      (hc : s.occupied < semCap) :
      AdmStep s ⟨s.reqs.set i RPhase.processing, s.occupied + 1⟩
  | shed (s : AdmState) (i : Nat) (h : s.reqs.get? i = some RPhase.racing) :
      AdmStep s ⟨s.reqs.set i (RPhase.doneShed "server overload"), s.occupied⟩
  | finish (s : AdmState) (i : Nat) (h : s.reqs.get? i = some RPhase.processing) :
      AdmStep s ⟨s.reqs.set i RPhase.doneOk, s.occupied - 1⟩

/-- Steps available while every admitted request is still blocked inside its
handler past the shedding deadline: no `finish` occurs. -/
inductive AdmStepNF : AdmState → AdmState → Prop
  | acquire (s : AdmState) (i : Nat) (h : s.reqs.get? i = some RPhase.racing)
      (hc : s.occupied < semCap) :
      AdmStepNF s ⟨s.reqs.set i RPhase.processing, s.occupied + 1⟩
  | shed (s : AdmState) (i : Nat) (h : s.reqs.get? i = some RPhase.racing) :
      AdmStepNF s ⟨s.reqs.set i (RPhase.doneShed "server overload"), s.occupied⟩

/-- Requests currently inside handler execution. -/
def isProcessing : RPhase → Bool
  | RPhase.processing => true
  | _ => false

/-- Requests still racing the deadline. -/
def isRacing : RPhase → Bool
  | RPhase.racing => true
  | _ => false

/-- Requests that finished processing. -/
def isDoneOk : RPhase → Bool
  | RPhase.doneOk => true
  | _ => false

/-- Requests that were shed. -/
def isShed : RPhase → Bool
  | RPhase.doneShed _ => true
  | _ => false

/-! ## Theorems -/

/-- More fuel never changes a run that did not exhaust its fuel. -/
theorem interp_mono (hs : List (List Cmd)) :
    ∀ fuel fuel' : Nat, fuel ≤ fuel' → ∀ j, interp hs fuel j ≠ Res.out →
      interp hs fuel' j = interp hs fuel j := by
  intro fuel
  induction fuel with
  | zero =>
    intro fuel' _ j hne
    cases j with
    | cmds cs s =>
      cases cs with
      | nil => simp [interp]
      | cons c cs => exact absurd (by simp [interp]) hne
    | loop s => exact absurd (by simp [interp]) hne
  | succ fuel ih =>
    intro fuel' hle j hne
    obtain ⟨f2, rfl⟩ : ∃ f2, fuel' = f2 + 1 := ⟨fuel' - 1, by omega⟩
    have hle2 : fuel ≤ f2 := by omega
    cases j with
    | cmds cs s =>
      cases cs with
      | nil => simp [interp]
      | cons c cs =>
        cases c with
        | work =>
          have hne' : interp hs fuel (Job.cmds cs s) ≠ Res.out := by
            simpa [interp] using hne
          simpa [interp] using ih f2 hle2 _ hne'
        | abort =>
          have hne' : interp hs fuel
              (Job.cmds cs { s with index := abortSentinel }) ≠ Res.out := by
            simpa [interp] using hne
          simpa [interp] using ih f2 hle2 _ hne'
        | panic => simp [interp]
        | next =>
          simp only [interp]
          cases hLoop : interp hs fuel (Job.loop { s with index := s.index + 1 }) with
          | ok s1 =>
            have h1 : interp hs f2 (Job.loop { s with index := s.index + 1 }) =
                Res.ok s1 := by
              rw [ih f2 hle2 _ (by rw [hLoop]; simp), hLoop]
            rw [h1]
            have hne' : interp hs fuel (Job.cmds cs s1) ≠ Res.out := by
              simp only [interp, hLoop] at hne
              exact hne
            exact ih f2 hle2 _ hne'
          | panicked s1 =>
            have h1 : interp hs f2 (Job.loop { s with index := s.index + 1 }) =
                Res.panicked s1 := by
              rw [ih f2 hle2 _ (by rw [hLoop]; simp), hLoop]
            rw [h1]
          | out =>
            exact absurd (by simp only [interp, hLoop]) hne
    | loop s =>
      simp only [interp]
      split
      case isTrue h =>
        cases hBody : interp hs fuel
            (Job.cmds (hs.get ⟨s.index.toNat, by omega⟩)
              { s with trace := s.trace ++ [s.index.toNat] }) with
        | ok s1 =>
          have h1 : interp hs f2
              (Job.cmds (hs.get ⟨s.index.toNat, by omega⟩)
                { s with trace := s.trace ++ [s.index.toNat] }) = Res.ok s1 := by
            rw [ih f2 hle2 _ (by rw [hBody]; simp), hBody]
          rw [h1]
          have hne' : interp hs fuel (Job.loop { s1 with index := s1.index + 1 }) ≠
              Res.out := by
            simp only [interp, dif_pos h, hBody] at hne
            exact hne
          exact ih f2 hle2 _ hne'
        | panicked s1 =>
          have h1 : interp hs f2
              (Job.cmds (hs.get ⟨s.index.toNat, by omega⟩)
                { s with trace := s.trace ++ [s.index.toNat] }) = Res.panicked s1 := by
            rw [ih f2 hle2 _ (by rw [hBody]; simp), hBody]
          rw [h1]
        | out =>
          refine absurd ?_ hne
          simp only [interp, dif_pos h, hBody]
      case isFalse h => rfl

/-- Once the cursor is at or past the end of the chain, no further handler is
ever invoked: whatever the remaining commands do (including calling `next()`
again, aborting again, or panicking), the trace is unchanged and the cursor
stays past the end.  `abort` keeps the cursor past the end because it moves
it to `abortSentinel`, which bounds the chain length by hypothesis. -/
theorem interp_sat (hs : List (List Cmd)) (hb : (hs.length : Int) ≤ abortSentinel) :
    ∀ fuel j s', (hs.length : Int) ≤ (jstate j).index →
      (interp hs fuel j = Res.ok s' ∨ interp hs fuel j = Res.panicked s') →
      s'.trace = (jstate j).trace ∧ (hs.length : Int) ≤ s'.index := by
  intro fuel
  induction fuel with
  | zero =>
    intro j s' hidx hres
    cases j with
    | cmds cs s =>
      cases cs with
      | nil =>
        rcases hres with h | h
        · simp only [interp, Res.ok.injEq] at h
          subst h
          exact ⟨rfl, hidx⟩
        · simp [interp] at h
      | cons c cs => rcases hres with h | h <;> simp [interp] at h
    | loop s => rcases hres with h | h <;> simp [interp] at h
  | succ fuel ih =>
    intro j s' hidx hres
    cases j with
    | cmds cs s =>
      simp only [jstate] at hidx ⊢
      cases cs with
      | nil =>
        rcases hres with h | h
        · simp only [interp, Res.ok.injEq] at h
          subst h
          exact ⟨rfl, hidx⟩
        · simp [interp] at h
      | cons c cs =>
        cases c with
        | work =>
          exact ih (Job.cmds cs s) s' hidx (by simpa [interp] using hres)
        | abort =>
          have h2 := ih (Job.cmds cs { s with index := abortSentinel }) s'
            (by simpa [jstate] using hb) (by simpa [interp] using hres)
          simpa [jstate] using h2
        | panic =>
          rcases hres with h | h
          · simp [interp] at h
          · simp only [interp, Res.panicked.injEq] at h
            subst h
            exact ⟨rfl, hidx⟩
        | next =>
          cases hLoop : interp hs fuel (Job.loop { s with index := s.index + 1 }) with
          | ok s1 =>
            have h1 := ih (Job.loop { s with index := s.index + 1 }) s1
              (by simp [jstate]; omega) (Or.inl hLoop)
            simp only [jstate] at h1
            have hres' : interp hs fuel (Job.cmds cs s1) = Res.ok s' ∨
                interp hs fuel (Job.cmds cs s1) = Res.panicked s' := by
              simpa [interp, hLoop] using hres
            have h2 := ih (Job.cmds cs s1) s' h1.2 hres'
            simp only [jstate] at h2
            exact ⟨h2.1.trans h1.1, h2.2⟩
          | panicked s1 =>
            have h1 := ih (Job.loop { s with index := s.index + 1 }) s1
              (by simp [jstate]; omega) (Or.inr hLoop)
            simp only [jstate] at h1
            rcases hres with h | h
            · simp [interp, hLoop] at h
            · simp only [interp, hLoop, Res.panicked.injEq] at h
              subst h
              exact h1
          | out =>
            rcases hres with h | h <;> simp [interp, hLoop] at h
    | loop s =>
      simp only [jstate] at hidx ⊢
      have hcond : ¬(0 ≤ s.index ∧ s.index < (hs.length : Int)) := by omega
      rcases hres with h | h
      · simp only [interp, dif_neg hcond, Res.ok.injEq] at h
        subst h
        exact ⟨rfl, hidx⟩
      · simp [interp, dif_neg hcond] at h

/-- A saturated run of an abort-free, panic-free body terminates normally,
invoking nothing. -/
theorem runCmds_sat_nw (hs : List (List Cmd)) :
    ∀ cs : List Cmd, cs.all nwCmd = true → ∀ s : CState,
      (hs.length : Int) ≤ s.index →
      ∃ fuel s', interp hs fuel (Job.cmds cs s) = Res.ok s' ∧
        s'.trace = s.trace ∧ (hs.length : Int) ≤ s'.index := by
  intro cs
  induction cs with
  | nil =>
    intro _ s hidx
    exact ⟨0, s, by simp [interp], rfl, hidx⟩
  | cons c cs ih =>
    intro hnw s hidx
    have hc : nwCmd c = true := by
      have := List.all_eq_true.mp hnw c (by simp)
      exact this
    have hcs : cs.all nwCmd = true := by
      refine List.all_eq_true.mpr ?_
      intro x hx
      exact List.all_eq_true.mp hnw x (by simp [hx])
    cases c with
    | abort => simp [nwCmd] at hc
    | panic => simp [nwCmd] at hc
    | work =>
      obtain ⟨f, s', h1, h2, h3⟩ := ih hcs s hidx
      exact ⟨f + 1, s', by simpa [interp] using h1, h2, h3⟩
    | next =>
      obtain ⟨f, s', h1, h2, h3⟩ := ih hcs { s with index := s.index + 1 }
        (by simp; omega)
      refine ⟨max f 1 + 1, s', ?_, by simpa using h2, h3⟩
      have hloop : interp hs (max f 1) (Job.loop { s with index := s.index + 1 }) =
          Res.ok { s with index := s.index + 1 } := by
        obtain ⟨g, hg⟩ : ∃ g, max f 1 = g + 1 := ⟨max f 1 - 1, by omega⟩
        rw [hg]
        have hcond : ¬(0 ≤ ({ s with index := s.index + 1 } : CState).index ∧
            ({ s with index := s.index + 1 } : CState).index < (hs.length : Int)) := by
          simp; omega
        simp [interp, dif_neg hcond]
      have hcs' : interp hs (max f 1) (Job.cmds cs { s with index := s.index + 1 }) =
          Res.ok s' := by
        rw [interp_mono hs f (max f 1) (by omega) _ (by rw [h1]; simp), h1]
      simp only [interp, hloop, hcs']

/-- Unfolding: an empty command list returns immediately. -/
theorem interp_cmds_nil (hs : List (List Cmd)) (fuel : Nat) (s : CState) :
    interp hs fuel (Job.cmds [] s) = Res.ok s := by
  cases fuel <;> rfl

/-- Unfolding: the loop exits returning its state when the cursor is out of
range. -/
theorem interp_loop_exit (hs : List (List Cmd)) (fuel : Nat) (s : CState)
    (h : ¬(0 ≤ s.index ∧ s.index < (hs.length : Int))) :
    interp hs (fuel + 1) (Job.loop s) = Res.ok s := by
  simp only [interp]
  exact dif_neg h

/-- Unfolding: one iteration of the loop when the cursor is in range. -/
theorem interp_loop_step (hs : List (List Cmd)) (fuel : Nat) (s : CState)
    (h : 0 ≤ s.index ∧ s.index < (hs.length : Int))
    (hlt : s.index.toNat < hs.length) :
    interp hs (fuel + 1) (Job.loop s) =
      match interp hs fuel (Job.cmds (hs.get ⟨s.index.toNat, hlt⟩)
          { s with trace := s.trace ++ [s.index.toNat] }) with
      | Res.ok s' => interp hs fuel (Job.loop { s' with index := s'.index + 1 })
      | r => r := by
  simp only [interp]
  rw [dif_pos h]

/-- In a chain with no aborts and no panics, the loop of `Context.Next`
entered with the cursor at position `i` invokes exactly the handlers at
positions `i, i+1, …, n-1`, each once and in order, and leaves the cursor
past the end of the chain — regardless of which handlers call `next()` and
how often. -/
theorem nextLoop_complete (hs : List (List Cmd)) (hnw : nwChain hs = true) :
    ∀ d i : Nat, i + d = hs.length → ∀ t : List Nat,
      ∃ fuel s', interp hs fuel (Job.loop ⟨(i : Int), t⟩) = Res.ok s' ∧
        s'.trace = t ++ List.range' i d ∧ (hs.length : Int) ≤ s'.index := by
  intro d
  induction d with
  | zero =>
    intro i hi t
    exact ⟨0 + 1, ⟨(i : Int), t⟩,
      interp_loop_exit hs 0 ⟨(i : Int), t⟩ (by simp; omega), by simp, by simp; omega⟩
  | succ d ih =>
    intro i hi t
    have hin : i < hs.length := by omega
    have hbody_nw : (hs.get ⟨i, hin⟩).all nwCmd = true :=
      List.all_eq_true.mp hnw (hs.get ⟨i, hin⟩) (List.get_mem hs i hin)
    have bodyRun : ∀ cs : List Cmd, cs.all nwCmd = true → ∀ s : CState,
        s.index = (i : Int) → ∃ fuel s',
          interp hs fuel (Job.cmds cs s) = Res.ok s' ∧
          ((s'.trace = s.trace ∧ s'.index = (i : Int)) ∨
           (s'.trace = s.trace ++ List.range' (i + 1) d ∧
             (hs.length : Int) ≤ s'.index)) := by
      intro cs
      induction cs with
      | nil =>
        intro _ s hsi
        exact ⟨0, s, interp_cmds_nil hs 0 s, Or.inl ⟨rfl, hsi⟩⟩
      | cons c cs ihc =>
        intro hnwc s hsi
        have hc : nwCmd c = true := List.all_eq_true.mp hnwc c (by simp)
        have hcs : cs.all nwCmd = true := by
          refine List.all_eq_true.mpr ?_
          intro x hx
          exact List.all_eq_true.mp hnwc x (by simp [hx])
        cases c with
        | abort => simp [nwCmd] at hc
        | panic => simp [nwCmd] at hc
        | work =>
          obtain ⟨f, s', h1, h2⟩ := ihc hcs s hsi
          exact ⟨f + 1, s', by simpa [interp] using h1, h2⟩
        | next =>
          obtain ⟨f1, s1, hL, hLt, hLi⟩ := ih (i + 1) (by omega) s.trace
          obtain ⟨f2, s2, hC, hCt, hCi⟩ := runCmds_sat_nw hs cs hcs s1 hLi
          refine ⟨max f1 f2 + 1, s2, ?_, Or.inr ⟨by rw [hCt, hLt], hCi⟩⟩
          have hstate : ({ s with index := s.index + 1 } : CState) =
              ⟨((i + 1 : Nat) : Int), s.trace⟩ := by
            simp [hsi]
          have hL' : interp hs (max f1 f2)
              (Job.loop ⟨((i + 1 : Nat) : Int), s.trace⟩) = Res.ok s1 := by
            rw [interp_mono hs f1 (max f1 f2) (by omega) _ (by rw [hL]; simp), hL]
          have hC' : interp hs (max f1 f2) (Job.cmds cs s1) = Res.ok s2 := by
            rw [interp_mono hs f2 (max f1 f2) (by omega) _ (by rw [hC]; simp), hC]
          show (match interp hs (max f1 f2)
              (Job.loop { s with index := s.index + 1 }) with
            | Res.ok s' => interp hs (max f1 f2) (Job.cmds cs s')
            | r => r) = Res.ok s2
          rw [hstate, hL']
          exact hC'
    obtain ⟨f, s', hB, hdisj⟩ := bodyRun (hs.get ⟨i, hin⟩) hbody_nw
      ⟨(i : Int), t ++ [i]⟩ rfl
    have hpos : (0 : Int) ≤ (i : Int) ∧ (i : Int) < (hs.length : Int) := by omega
    rcases hdisj with ⟨ht, hidx⟩ | ⟨ht, hidx⟩
    · -- the body never called next(): the loop itself advances to i+1
      obtain ⟨f2, s2, h2, h2t, h2i⟩ := ih (i + 1) (by omega) (t ++ [i])
      refine ⟨max f f2 + 1, s2, ?_, ?_, h2i⟩
      · have hB' : interp hs (max f f2)
            (Job.cmds (hs.get ⟨i, hin⟩) ⟨(i : Int), t ++ [i]⟩) = Res.ok s' := by
          rw [interp_mono hs f (max f f2) (by omega) _ (by rw [hB]; simp), hB]
        have h2' : interp hs (max f f2)
            (Job.loop ⟨((i + 1 : Nat) : Int), t ++ [i]⟩) = Res.ok s2 := by
          rw [interp_mono hs f2 (max f f2) (by omega) _ (by rw [h2]; simp), h2]
        have hcont : interp hs (max f f2)
            (Job.loop { s' with index := s'.index + 1 }) = Res.ok s2 := by
          have hnextstate : ({ s' with index := s'.index + 1 } : CState) =
              ⟨((i + 1 : Nat) : Int), t ++ [i]⟩ := by
            simp [hidx, ht]
          rw [hnextstate]
          exact h2'
        rw [interp_loop_step hs (max f f2) ⟨(i : Int), t⟩ hpos (by simp; omega)]
        show (match interp hs (max f f2)
            (Job.cmds (hs.get ⟨i, hin⟩) ⟨(i : Int), t ++ [i]⟩) with
          | Res.ok s1 => interp hs (max f f2)
              (Job.loop { s1 with index := s1.index + 1 })
          | r => r) = Res.ok s2
        rw [hB']
        exact hcont
      · rw [h2t, List.append_assoc]
        congr 1
    · -- the body already ran the whole tail: the loop exits immediately
      refine ⟨max f 1 + 1, ⟨s'.index + 1, s'.trace⟩, ?_, ?_, by simp; omega⟩
      · have hB' : interp hs (max f 1)
            (Job.cmds (hs.get ⟨i, hin⟩) ⟨(i : Int), t ++ [i]⟩) = Res.ok s' := by
          rw [interp_mono hs f (max f 1) (by omega) _ (by rw [hB]; simp), hB]
        have hexit : interp hs (max f 1)
            (Job.loop { s' with index := s'.index + 1 }) =
            Res.ok { s' with index := s'.index + 1 } := by
          obtain ⟨g, hg⟩ : ∃ g, max f 1 = g + 1 := ⟨max f 1 - 1, by omega⟩
          rw [hg]
          exact interp_loop_exit hs g _ (by simp; omega)
        rw [interp_loop_step hs (max f 1) ⟨(i : Int), t⟩ hpos (by simp; omega)]
        show (match interp hs (max f 1)
            (Job.cmds (hs.get ⟨i, hin⟩) ⟨(i : Int), t ++ [i]⟩) with
          | Res.ok s1 => interp hs (max f 1)
              (Job.loop { s1 with index := s1.index + 1 })
          | r => r) = Res.ok ⟨s'.index + 1, s'.trace⟩
        rw [hB']
        exact hexit
      · show s'.trace = t ++ List.range' i (d + 1)
        rw [ht, List.append_assoc]
        congr 1

/-- C1: For a chain of handlers that all call `next()` (and neither abort
nor panic), the dispatcher's single initial `next()` call executes
H1, …, Hn in order, each exactly once.  This is the amended form of claim
C1: its short-circuit half is refuted by `c1_counterexample` — a handler
that returns without calling `next()` does NOT terminate the chain, because
the loop inside `Context.Next` advances the cursor itself; the amended claim
states that the in-order-exactly-once execution holds for every chain
without `abort()` calls and without panics, whether or not handlers call
`next()`. -/
theorem c1_chain_inorder_amended (hs : List (List Cmd)) (hnw : nwChain hs = true) :
    ∃ fuel s', dispatchChain hs fuel = Res.ok s' ∧ s'.trace = List.range hs.length := by
  obtain ⟨f, s', h1, h2, _⟩ := nextLoop_complete hs hnw hs.length 0 (by omega) []
  refine ⟨f, s', ?_, by simpa [List.range_eq_range'] using h2⟩
  show interp hs f (Job.loop ⟨(-1 : Int) + 1, []⟩) = Res.ok s'
  have he : (⟨(-1 : Int) + 1, ([] : List Nat)⟩ : CState) =
      ⟨((0 : Nat) : Int), []⟩ := by norm_num
  rw [he]
  exact h1

/-- C1, witness: a three-handler chain whose handlers call `next()` runs
them in order 0, 1, 2 exactly once each. -/
theorem c1_chain_inorder_amended_witness :
    ∃ fuel s', dispatchChain [[Cmd.next], [Cmd.next], [Cmd.next]] fuel = Res.ok s' ∧
      s'.trace = List.range 3 :=
  c1_chain_inorder_amended [[Cmd.next], [Cmd.next], [Cmd.next]] (by decide)

/-- C1, counterexample: the claim asserts that when handler H1 returns
without calling `next()`, H2 is never executed.  In the code, running the
two-handler chain where neither handler calls `next()` produces the trace
`[0, 1]`: handler 1 (the second handler) is executed even though handler 0
returned without calling `next()` — the loop in `Context.Next` advanced the
cursor itself. -/
theorem c1_counterexample :
    dispatchChain [[Cmd.work], [Cmd.work]] 10 = Res.ok ⟨2, [0, 1]⟩ ∧
      (1 : Nat) ∈ ([0, 1] : List Nat) := by
  decide

/-- C4: once `abort()` is called (at any point of a handler's body), no
handler is ever invoked again for that request, even if `next()` is called
again afterwards in the same unwinding stack: the run of the aborting
handler's remaining commands — whatever they are — adds nothing to the
invocation trace, and leaves the cursor at or past the end of the chain, so
the enclosing `Next` loops cannot invoke anything either.  Requires the
chain length to be below the sentinel `10000000000000`, as the claim
states. -/
theorem c4_abort_stops_chain (hs : List (List Cmd))
    (hb : (hs.length : Int) < abortSentinel) (cs : List Cmd) (fuel : Nat)
    (s s' : CState)
    (h : runCmds hs fuel (Cmd.abort :: cs) s = Res.ok s' ∨
      runCmds hs fuel (Cmd.abort :: cs) s = Res.panicked s') :
    s'.trace = s.trace ∧ (hs.length : Int) ≤ s'.index := by
  cases fuel with
  | zero => rcases h with h | h <;> simp [runCmds, interp] at h
  | succ fuel =>
    have h' : interp hs fuel (Job.cmds cs { s with index := abortSentinel }) =
        Res.ok s' ∨
        interp hs fuel (Job.cmds cs { s with index := abortSentinel }) =
        Res.panicked s' := by
      simpa [runCmds, interp] using h
    have hsat := interp_sat hs (le_of_lt hb) fuel
      (Job.cmds cs { s with index := abortSentinel }) s'
      (by simpa [jstate] using le_of_lt hb) h'
    simpa [jstate] using hsat

/-- C4, witness: in a two-handler chain, a handler that aborts and then
calls `next()` again invokes nothing further (the trace stays `[0]`) and
leaves the cursor past the end. -/
theorem c4_abort_stops_chain_witness :
    (⟨10000000000001, [0]⟩ : CState).trace = (⟨0, [0]⟩ : CState).trace ∧
      ((([[Cmd.abort, Cmd.next], [Cmd.work]] : List (List Cmd)).length : Int) ≤
        (⟨10000000000001, [0]⟩ : CState).index) :=
  c4_abort_stops_chain [[Cmd.abort, Cmd.next], [Cmd.work]] (by decide)
    [Cmd.next] 10 ⟨0, [0]⟩ ⟨10000000000001, [0]⟩ (Or.inl (by decide))

/-- C10: in the implemented chain runner, a handler at position `k` that
returns without calling `next()` or `abort()` does not stop the chain: the
enclosing `Next` loop that invoked it advances the cursor and invokes
handler `k+1` (when one exists), and in an abort-free, panic-free chain the
loop entered at position `k` still invokes every handler `k, k+1, …, n-1`
exactly once, in order. -/
theorem c10_bare_return_continues (hs : List (List Cmd)) (hnw : nwChain hs = true)
    (k : Nat) (hk : k < hs.length) (_hnf : Cmd.next ∉ hs.getD k []) (t : List Nat) :
    ∃ fuel s', nextLoop hs fuel ⟨(k : Int), t⟩ = Res.ok s' ∧
      s'.trace = t ++ List.range' k (hs.length - k) ∧
      (k + 1 < hs.length → (k + 1) ∈ s'.trace) := by
  obtain ⟨f, s', h1, h2, _⟩ := nextLoop_complete hs hnw (hs.length - k) k (by omega) t
  refine ⟨f, s', h1, h2, ?_⟩
  intro hk1
  rw [h2]
  refine List.mem_append_right _ ?_
  rw [List.mem_range'_1]
  omega

/-- C10, witness: in the chain `[[work], [work]]`, handler 0 returns without
calling `next()` or `abort()`, yet handler 1 is invoked: the loop produces
trace `[0, 1]`. -/
theorem c10_bare_return_continues_witness :
    ∃ fuel s', nextLoop [[Cmd.work], [Cmd.work]] fuel ⟨((0 : Nat) : Int), []⟩ =
        Res.ok s' ∧
      s'.trace = [] ++ List.range' 0 ([[Cmd.work], [Cmd.work]].length - 0) ∧
      (0 + 1 < [[Cmd.work], [Cmd.work]].length → (0 + 1) ∈ s'.trace) :=
  c10_bare_return_continues [[Cmd.work], [Cmd.work]] (by decide) 0 (by decide)
    (by decide) []

/-- C3, counterexample: the claim asserts that for every incoming
(method, path) pair a pattern entry is selected only when its compiled regex
matches the path.  At the empty incoming path (reachable: Go's net/http
delivers `URL.Path == ""` for absolute-form and CONNECT request targets,
and `Engine.ServeHTTP` uses `req.URL.Path` directly), a `RegexMatch` entry's
zero-value literal path `""` string-compares equal to the path, so the
code's scan returns that entry's chain even though its regex rejects every
path — while the resolver written from the spec's words returns
"not found". -/
theorem c3_counterexample :
    resolveGo [mkRegex (fun _ => false) [1]] "GET" "" = some [1] ∧
    specResolve [mkRegex (fun _ => false) [1]] "GET" "" = none :=
  ⟨rfl, rfl⟩

/-- C3, amended: for every well-registered route table and every incoming
(method, path) pair with a NON-EMPTY path, the linear scan of
`Engine.ServeHTTP` returns the handler chain of the first entry in
registration order whose method equals the request method and whose matcher
accepts the path (literal matcher: string equality; pattern matcher: the
compiled regex matches), and `none` ("not found") when no entry satisfies
both.  The restriction to non-empty paths is forced by `c3_counterexample`:
at the empty path a pattern entry's zero-value literal path `""` also
string-compares equal, so the code can select a pattern entry whose regex
rejects the path.  Stated as agreement between the embedded code scan and
the resolver written from the spec's words. -/
theorem c3_resolve_first_match (trees : List MTree) (hwf : wellRegistered trees)
    (method path : String) (hp : path ≠ "") :
    resolveGo trees method path = specResolve trees method path := by
  induction trees with
  | nil => simp [resolveGo, specResolve]
  | cons v rest ih =>
    have hv := hwf v (by simp)
    have hih := ih (fun u hu => hwf u (by simp [hu]))
    rcases hv with hrx | hpath
    · cases hpm : (v.root.path == path) with
      | true =>
        cases hm : (v.method == method) with
        | true =>
          simp [resolveGo, specResolve, nodeMatches, specAccept, hrx, hpm, hm,
            List.find?]
        | false =>
          simp only [resolveGo, specResolve, nodeMatches, specAccept, hrx, hpm, hm,
            List.find?, Bool.false_and, Bool.or_false, if_true, if_false]
          simpa [specResolve] using hih
      | false =>
        cases hm : (v.method == method) with
        | true =>
          simp only [resolveGo, specResolve, nodeMatches, specAccept, hrx, hpm, hm,
            List.find?, Bool.true_and, Bool.or_false, if_false]
          simpa [specResolve] using hih
        | false =>
          simp only [resolveGo, specResolve, nodeMatches, specAccept, hrx, hpm, hm,
            List.find?, Bool.false_and, Bool.or_false, if_false]
          simpa [specResolve] using hih
    · have hpm : (v.root.path == path) = false := by
        rw [hpath]
        exact beq_eq_false_iff_ne.mpr (Ne.symm hp)
      cases hrx2 : v.root.rx with
      | none =>
        cases hm : (v.method == method) with
        | true =>
          simp only [resolveGo, specResolve, nodeMatches, specAccept, hrx2, hpm, hm,
            List.find?, Bool.true_and, Bool.or_false, if_false]
          simpa [specResolve] using hih
        | false =>
          simp only [resolveGo, specResolve, nodeMatches, specAccept, hrx2, hpm, hm,
            List.find?, Bool.false_and, Bool.or_false, if_false]
          simpa [specResolve] using hih
      | some r =>
        cases hr : r path with
        | true =>
          cases hm : (v.method == method) with
          | true =>
            simp [resolveGo, specResolve, nodeMatches, specAccept, hrx2, hpm, hm, hr,
              List.find?]
          | false =>
            simp only [resolveGo, specResolve, nodeMatches, specAccept, hrx2, hpm,
              hm, hr, List.find?, Bool.false_and, Bool.false_or, if_true, if_false]
            simpa [specResolve] using hih
        | false =>
          cases hm : (v.method == method) with
          | true =>
            simp only [resolveGo, specResolve, nodeMatches, specAccept, hrx2, hpm,
              hm, hr, List.find?, Bool.true_and, Bool.false_or, if_false]
            simpa [specResolve] using hih
          | false =>
            simp only [resolveGo, specResolve, nodeMatches, specAccept, hrx2, hpm,
              hm, hr, List.find?, Bool.false_and, Bool.false_or, if_false]
            simpa [specResolve] using hih

/-- C3, witness: on a table with a literal `GET /a`, a pattern entry
matching `/b`, and a literal `POST /a`, the code's scan and the
specification's first-match resolver agree for a concrete request. -/
theorem c3_resolve_first_match_witness :
    resolveGo [mkLiteral "GET" "/a" [1], mkRegex (fun s => s == "/b") [2],
        mkLiteral "POST" "/a" [3]] "GET" "/b" =
      specResolve [mkLiteral "GET" "/a" [1], mkRegex (fun s => s == "/b") [2],
        mkLiteral "POST" "/a" [3]] "GET" "/b" :=
  c3_resolve_first_match _
    (by
      intro v hv
      simp only [mkLiteral, mkRegex, List.mem_cons, List.mem_singleton,
        List.not_mem_nil] at hv
      rcases hv with rfl | rfl | rfl | h
      · exact Or.inl rfl
      · exact Or.inr rfl
      · exact Or.inl rfl
      · cases h)
    "GET" "/b" (by decide)

/-- C2: for every dispatched request, `Post_Process` is invoked exactly
once, after the pre-hook and after the chain (the event list of
`safelyHandle` is the body's events — which are `[evPre]` or
`[evPre, evChain]` and never contain `evPost` — followed by exactly one
`evPost`); and when the body (pre-hook, form parsing, or the chain) panics,
the inner deferred scope recovers it and records its description in the
Context's error slot in the context handed to `Post_Process`.  That
`safelyHandle` returns a plain value (its type has no panic alternative)
reflects that the recovery scopes keep any request panic from terminating
the process. -/
theorem c2_post_hook_exactly_once (w : World) (hasHandlers : Bool) (c : DCtx) :
    (safelyHandle w hasHandlers c).2 = (runBody w hasHandlers c).2 ++ [DEvent.evPost] ∧
    ((runBody w hasHandlers c).2 = [DEvent.evPre] ∨
      (runBody w hasHandlers c).2 = [DEvent.evPre, DEvent.evChain]) ∧
    (∀ m cf, (runBody w hasHandlers c).1 = HFate.panic m cf →
      (postArg (runBody w hasHandlers c).1).err = some m) := by
  refine ⟨?_, ?_, ?_⟩
  · simp only [safelyHandle]
    cases hpost : w.post (postArg (runBody w hasHandlers c).1) with
    | ok c2 => rfl
    | panic m c2 => rfl
  · simp only [runBody]
    cases hpre : w.pre c with
    | panic m c' => simp
    | ok c1 =>
      cases hasHandlers with
      | false => simp
      | true =>
        cases hpf : w.parseForm with
        | some e => simp
        | none =>
          cases hch : w.chain c1 with
          | ok c2 => simp [hch]
          | panic m c2 => simp [hch]
  · intro m cf hpanic
    rw [hpanic]
    rfl

/-- C2, witness: with a chain that panics with description `boom`, the
context handed to `Post_Process` carries `boom` in its error slot. -/
theorem c2_post_hook_exactly_once_witness :
    (postArg (runBody ⟨fun c => HFate.ok c, fun c => HFate.ok c, none,
        fun c => HFate.panic "boom" c⟩ true ⟨none, [], none⟩).1).err = some "boom" :=
  (c2_post_hook_exactly_once ⟨fun c => HFate.ok c, fun c => HFate.ok c, none,
      fun c => HFate.panic "boom" c⟩ true ⟨none, [], none⟩).2.2 "boom"
    ⟨none, [], none⟩ rfl

/-- C6: a request that loses the admission race is shed: the only bytes
written are exactly the literal text `server overload` (no structured
envelope), the event list is empty (no hook runs, no handler runs), and the
result does not depend on the route table or on any route lookup. -/
theorem c6_shed_literal_body (w : World) (trees : List MTree) (method path : String)
    (c : DCtx) :
    serveHTTP false w trees method path c =
      ({ c with written := c.written ++ ["server overload"] }, []) := by
  rfl

/-- C7: when the post-dispatch hook itself panics — the only panic that can
escape the inner recovery scope — the outer scope of `safelyHandle` catches
it and appends the raw panic description to the response sink, so the
request still ends with a normal return (bytes written, process alive). -/
theorem c7_outer_recovery_writes (w : World) (hasHandlers : Bool) (c : DCtx)
    (m : String) (c2 : DCtx)
    (hpost : w.post (postArg (runBody w hasHandlers c).1) = HFate.panic m c2) :
    safelyHandle w hasHandlers c =
      ({ c2 with written := c2.written ++ [m] },
        (runBody w hasHandlers c).2 ++ [DEvent.evPost]) := by
  simp only [safelyHandle, hpost]

/-- C7, witness: a post-hook that panics with `hookboom` results in
`hookboom` being written to the sink and a normal return. -/
theorem c7_outer_recovery_writes_witness :
    safelyHandle ⟨fun c => HFate.ok c, fun c => HFate.panic "hookboom" c, none,
        fun c => HFate.ok c⟩ true ⟨none, [], none⟩ =
      (⟨none, ["hookboom"], none⟩,
        [DEvent.evPre, DEvent.evChain, DEvent.evPost]) :=
  c7_outer_recovery_writes ⟨fun c => HFate.ok c, fun c => HFate.panic "hookboom" c,
      none, fun c => HFate.ok c⟩ true ⟨none, [], none⟩ "hookboom"
    ⟨none, [], none⟩ rfl

/-- C5, counterexample: the claim asserts that after the chain completes the
Context's original response sink is restored in place of the wrapper.  In
the code, the cleanup returned by `wrapGzip` only closes the gzip writer and
never reassigns `c.Writer`: running `GzipMiddleware` for a gzip-capable
request with a trivial inner chain leaves `c.Writer` pointing at the
wrapper, not at the original sink. -/
theorem c5_counterexample :
    GzipMiddleware true GFate.ok ⟨SinkId.orig, none, false⟩ =
      GFate.ok ⟨SinkId.gzWrap, some "gzip", true⟩ ∧
      SinkId.gzWrap ≠ SinkId.orig := by
  decide

/-- C5, amended: when the client advertises gzip, the deferred cleanup runs
on every exit path of `GzipMiddleware` — normal return of the chain (which
includes short-circuits) and panic unwinding alike — and closes (flushes)
the compressor; the Context's writer is NOT restored to the original sink:
the middleware leaves `c.Writer` exactly as the chain left it, which for a
chain that does not itself reassign the writer is still the wrapper. -/
theorem c5_gzip_cleanup_amended (inner : GzCtx → GFate) (c : GzCtx) :
    (∀ c2, inner (wrapGzip c) = GFate.ok c2 →
      GzipMiddleware true inner c = GFate.ok (gzCleanup c2) ∧
        (gzCleanup c2).gzClosed = true ∧ (gzCleanup c2).writer = c2.writer) ∧
    (∀ m c2, inner (wrapGzip c) = GFate.panic m c2 →
      GzipMiddleware true inner c = GFate.panic m (gzCleanup c2) ∧
        (gzCleanup c2).gzClosed = true ∧ (gzCleanup c2).writer = c2.writer) := by
  constructor
  · intro c2 h
    exact ⟨by simp [GzipMiddleware, h], rfl, rfl⟩
  · intro m c2 h
    exact ⟨by simp [GzipMiddleware, h], rfl, rfl⟩

/-- C5, witness: for a trivial inner chain, the middleware's result has the
compressor closed and the writer still pointing at the wrapper. -/
theorem c5_gzip_cleanup_amended_witness :
    GzipMiddleware true GFate.ok ⟨SinkId.orig, none, false⟩ =
      GFate.ok (gzCleanup (wrapGzip ⟨SinkId.orig, none, false⟩)) ∧
      (gzCleanup (wrapGzip ⟨SinkId.orig, none, false⟩)).gzClosed = true ∧
      (gzCleanup (wrapGzip ⟨SinkId.orig, none, false⟩)).writer =
        (wrapGzip ⟨SinkId.orig, none, false⟩).writer :=
  (c5_gzip_cleanup_amended GFate.ok ⟨SinkId.orig, none, false⟩).1
    (wrapGzip ⟨SinkId.orig, none, false⟩) rfl

/-- Allocating a fresh backing array does not change what any existing slice
sees. -/
theorem sliceView_alloc_frame {α : Type} (m : Mem α) (xs pad : List α) (t : SliceV)
    (ht : t.arr < m.arrays.length) :
    sliceView (allocSlice m xs pad).1 t = sliceView m t := by
  simp [sliceView, allocSlice, List.getD_eq_getElem?_getD, List.getElem?_append, ht]

/-- A freshly allocated slice sees exactly the elements it was built from
(the spare capacity is invisible). -/
theorem sliceView_alloc_new {α : Type} (m : Mem α) (xs pad : List α) :
    sliceView (allocSlice m xs pad).1 (allocSlice m xs pad).2 = xs := by
  simp only [sliceView, allocSlice]
  rw [List.getD_append_right _ _ _ _ (le_refl _)]
  simp [List.take_left]

/-- `append` on a slice never changes what a slice over a different backing
array sees — neither the in-place write (it touches only `s`'s array) nor
the reallocation (it only adds a fresh array). -/
theorem sliceView_appendS_frame {α : Type} (m : Mem α) (s : SliceV) (xs pad : List α)
    (t : SliceV) (hts : t.arr ≠ s.arr) (ht : t.arr < m.arrays.length) :
    sliceView (appendS m s xs pad).1 t = sliceView m t := by
  simp only [appendS]
  split
  · simp [sliceView, List.getD_eq_getElem?_getD, List.getElem?_set_ne (Ne.symm hts)]
  · exact sliceView_alloc_frame m _ pad t ht

/-- C8: `Group()` returns a child whose middleware slice is a copy of the
parent's in a fresh backing array; consequently `Use(...)` on the child and
registrations from the child leave the parent's slice and every slice backed
by a different array (sibling prefixes, previously registered chains)
unchanged, and symmetrically `Use(...)` on the parent leaves the child's
slice and every other such slice unchanged — for every possible spare
capacity the runtime grants each allocation. -/
theorem c8_group_no_sharing {α : Type} (m : Mem α) (parent : GroupV)
    (s : SliceV) (pad0 mw pad1 mw2 pad2 : List α) (hnd : α) (pad3 pad4 : List α)
    (hp : parent.Handlers.arr < m.arrays.length)
    (hs1 : s.arr < m.arrays.length) (hs2 : s.arr ≠ parent.Handlers.arr) :
    sliceView (groupChild m parent pad0).1 (groupChild m parent pad0).2.Handlers =
      sliceView m parent.Handlers ∧
    (groupChild m parent pad0).2.Handlers.arr = m.arrays.length ∧
    sliceView (groupChild m parent pad0).1 parent.Handlers =
      sliceView m parent.Handlers ∧
    sliceView (groupChild m parent pad0).1 s = sliceView m s ∧
    sliceView (useG (groupChild m parent pad0).1 (groupChild m parent pad0).2
        mw pad1).1 parent.Handlers = sliceView m parent.Handlers ∧
    sliceView (useG (groupChild m parent pad0).1 (groupChild m parent pad0).2
        mw pad1).1 s = sliceView m s ∧
    sliceView (useG (groupChild m parent pad0).1 parent mw2 pad2).1
        (groupChild m parent pad0).2.Handlers =
      sliceView (groupChild m parent pad0).1 (groupChild m parent pad0).2.Handlers ∧
    sliceView (useG (groupChild m parent pad0).1 parent mw2 pad2).1 s =
      sliceView m s ∧
    sliceView (registerChain (groupChild m parent pad0).1
        (groupChild m parent pad0).2 hnd pad3 pad4).1 parent.Handlers =
      sliceView m parent.Handlers ∧
    sliceView (registerChain (groupChild m parent pad0).1
        (groupChild m parent pad0).2 hnd pad3 pad4).1 s = sliceView m s := by
  have hm1len : (groupChild m parent pad0).1.arrays.length = m.arrays.length + 1 := by
    simp [groupChild, allocSlice]
  have hchildarr : (groupChild m parent pad0).2.Handlers.arr = m.arrays.length := rfl
  have hParentFrame : sliceView (groupChild m parent pad0).1 parent.Handlers =
      sliceView m parent.Handlers :=
    sliceView_alloc_frame m _ pad0 parent.Handlers hp
  have hSFrame : sliceView (groupChild m parent pad0).1 s = sliceView m s :=
    sliceView_alloc_frame m _ pad0 s hs1
  refine ⟨sliceView_alloc_new m _ pad0, hchildarr, hParentFrame, hSFrame,
    ?_, ?_, ?_, ?_, ?_, ?_⟩
  · rw [show (useG (groupChild m parent pad0).1 (groupChild m parent pad0).2
        mw pad1).1 =
      (appendS (groupChild m parent pad0).1 (groupChild m parent pad0).2.Handlers
        mw pad1).1 from rfl]
    rw [sliceView_appendS_frame _ _ _ _ parent.Handlers
      (by rw [hchildarr]; omega) (by omega)]
    exact hParentFrame
  · rw [show (useG (groupChild m parent pad0).1 (groupChild m parent pad0).2
        mw pad1).1 =
      (appendS (groupChild m parent pad0).1 (groupChild m parent pad0).2.Handlers
        mw pad1).1 from rfl]
    rw [sliceView_appendS_frame _ _ _ _ s (by rw [hchildarr]; omega) (by omega)]
    exact hSFrame
  · rw [show (useG (groupChild m parent pad0).1 parent mw2 pad2).1 =
      (appendS (groupChild m parent pad0).1 parent.Handlers mw2 pad2).1 from rfl]
    exact sliceView_appendS_frame _ _ _ _ _ (by rw [hchildarr]; omega) (by omega)
  · rw [show (useG (groupChild m parent pad0).1 parent mw2 pad2).1 =
      (appendS (groupChild m parent pad0).1 parent.Handlers mw2 pad2).1 from rfl]
    rw [sliceView_appendS_frame _ _ _ _ s hs2 (by omega)]
    exact hSFrame
  · rw [show (registerChain (groupChild m parent pad0).1
        (groupChild m parent pad0).2 hnd pad3 pad4).1 =
      (appendS (allocSlice (groupChild m parent pad0).1
          (sliceView (groupChild m parent pad0).1
            (groupChild m parent pad0).2.Handlers) pad3).1
        (allocSlice (groupChild m parent pad0).1
          (sliceView (groupChild m parent pad0).1
            (groupChild m parent pad0).2.Handlers) pad3).2
        [hnd] pad4).1 from rfl]
    rw [sliceView_appendS_frame _ _ _ _ parent.Handlers
      (by simp [allocSlice]; omega) (by simp [allocSlice]; omega)]
    rw [sliceView_alloc_frame _ _ _ parent.Handlers (by omega)]
    exact hParentFrame
  · rw [show (registerChain (groupChild m parent pad0).1
        (groupChild m parent pad0).2 hnd pad3 pad4).1 =
      (appendS (allocSlice (groupChild m parent pad0).1
          (sliceView (groupChild m parent pad0).1
            (groupChild m parent pad0).2.Handlers) pad3).1
        (allocSlice (groupChild m parent pad0).1
          (sliceView (groupChild m parent pad0).1
            (groupChild m parent pad0).2.Handlers) pad3).2
        [hnd] pad4).1 from rfl]
    rw [sliceView_appendS_frame _ _ _ _ s
      (by simp [allocSlice]; omega) (by simp [allocSlice]; omega)]
    rw [sliceView_alloc_frame _ _ _ s (by omega)]
    exact hSFrame

/-- C8, witness: over a concrete two-array store, creating a child group and
calling `Use` on it leaves the parent's view intact, and `Use` on the parent
leaves the child's view intact. -/
theorem c8_group_no_sharing_witness :
    sliceView (useG (groupChild (⟨[[1, 2], [7]]⟩ : Mem Nat) ⟨⟨0, 2⟩⟩ [0]).1
        (groupChild (⟨[[1, 2], [7]]⟩ : Mem Nat) ⟨⟨0, 2⟩⟩ [0]).2 [5] [0]).1
      (⟨0, 2⟩ : SliceV) = sliceView (⟨[[1, 2], [7]]⟩ : Mem Nat) (⟨0, 2⟩ : SliceV) ∧
    sliceView (useG (groupChild (⟨[[1, 2], [7]]⟩ : Mem Nat) ⟨⟨0, 2⟩⟩ [0]).1
        ⟨⟨0, 2⟩⟩ [6] [0]).1
      (groupChild (⟨[[1, 2], [7]]⟩ : Mem Nat) ⟨⟨0, 2⟩⟩ [0]).2.Handlers =
      sliceView (groupChild (⟨[[1, 2], [7]]⟩ : Mem Nat) ⟨⟨0, 2⟩⟩ [0]).1
        (groupChild (⟨[[1, 2], [7]]⟩ : Mem Nat) ⟨⟨0, 2⟩⟩ [0]).2.Handlers :=
  ⟨(c8_group_no_sharing (⟨[[1, 2], [7]]⟩ : Mem Nat) ⟨⟨0, 2⟩⟩ ⟨1, 1⟩ [0] [5] [0]
      [6] [0] 9 [0] [0] (by decide) (by decide) (by decide)).2.2.2.2.1,
    (c8_group_no_sharing (⟨[[1, 2], [7]]⟩ : Mem Nat) ⟨⟨0, 2⟩⟩ ⟨1, 1⟩ [0] [5] [0]
      [6] [0] 9 [0] [0] (by decide) (by decide) (by decide)).2.2.2.2.2.2.1⟩

/-- Replacing one element changes a `countP` by the difference of the
indicator values of the old and new elements. -/
theorem countP_set_add {α : Type} (p : α → Bool) (l : List α) (i : Nat) (a : α)
    (h : i < l.length) :
    (l.set i a).countP p + (if p (l.get ⟨i, h⟩) then 1 else 0) =
      l.countP p + (if p a then 1 else 0) := by
  induction l generalizing i with
  | nil => simp at h
  | cons x xs ih =>
    cases i with
    | zero =>
      simp only [List.set_cons_zero, List.countP_cons, List.get]
      omega
    | succ i =>
      have hlen : i < xs.length := by simpa using h
      have := ih i hlen
      simp only [List.set_cons_succ, List.countP_cons, List.get]
      omega

/-- `countP` of a replicated element whose indicator is false is zero. -/
theorem countP_replicate_false {α : Type} (p : α → Bool) (a : α)
    (hpa : p a = false) (n : Nat) : (List.replicate n a).countP p = 0 := by
  induction n with
  | zero => simp
  | succ n ih => simp [List.replicate_succ, List.countP_cons, hpa, ih]

/-- Every request phase is exactly one of racing / processing / done-ok /
shed. -/
theorem phase_partition (l : List RPhase) :
    l.countP isRacing + l.countP isProcessing + l.countP isDoneOk +
      l.countP isShed = l.length := by
  induction l with
  | nil => simp
  | cons x xs ih =>
    simp only [List.countP_cons, List.length_cons]
    cases x <;> simp [isRacing, isProcessing, isDoneOk, isShed] <;> omega

/-- One admission step preserves the semaphore invariant: the number of
requests inside handler execution equals the number of occupied permits,
which never exceeds the capacity, and every shed request was shed with the
literal overload body. -/
theorem admStep_inv (s s' : AdmState) (hstep : AdmStep s s')
    (h1 : s.reqs.countP isProcessing = s.occupied) (h2 : s.occupied ≤ semCap)
    (h3 : ∀ b, RPhase.doneShed b ∈ s.reqs → b = "server overload") :
    s'.reqs.countP isProcessing = s'.occupied ∧ s'.occupied ≤ semCap ∧
      (∀ b, RPhase.doneShed b ∈ s'.reqs → b = "server overload") := by
  cases hstep with
  | acquire i hi hc =>
    obtain ⟨hlen, hget⟩ := List.get?_eq_some.mp hi
    have hcount := countP_set_add isProcessing s.reqs i RPhase.processing hlen
    rw [hget] at hcount
    simp [isProcessing] at hcount
    refine ⟨?_, ?_, ?_⟩
    · show (s.reqs.set i RPhase.processing).countP isProcessing = s.occupied + 1
      omega
    · show s.occupied + 1 ≤ semCap
      omega
    · intro b hb
      rcases List.mem_or_eq_of_mem_set hb with hb' | hb'
      · exact h3 b hb'
      · cases hb'
  | shed i hi =>
    obtain ⟨hlen, hget⟩ := List.get?_eq_some.mp hi
    have hcount := countP_set_add isProcessing s.reqs i
      (RPhase.doneShed "server overload") hlen
    rw [hget] at hcount
    simp [isProcessing] at hcount
    refine ⟨?_, h2, ?_⟩
    · show (s.reqs.set i (RPhase.doneShed "server overload")).countP isProcessing =
        s.occupied
      omega
    · intro b hb
      rcases List.mem_or_eq_of_mem_set hb with hb' | hb'
      · exact h3 b hb'
      · injection hb' with hb''
  | finish i hi =>
    obtain ⟨hlen, hget⟩ := List.get?_eq_some.mp hi
    have hcount := countP_set_add isProcessing s.reqs i RPhase.doneOk hlen
    rw [hget] at hcount
    simp [isProcessing] at hcount
    have hpos : 0 < s.reqs.countP isProcessing :=
      List.countP_pos_iff.mpr ⟨RPhase.processing, List.get?_mem hi, rfl⟩
    refine ⟨?_, ?_, ?_⟩
    · show (s.reqs.set i RPhase.doneOk).countP isProcessing = s.occupied - 1
      omega
    · show s.occupied - 1 ≤ semCap
      omega
    · intro b hb
      rcases List.mem_or_eq_of_mem_set hb with hb' | hb'
      · exact h3 b hb'
      · cases hb'

/-- The semaphore invariant holds in every reachable state. -/
theorem admReach_inv (k : Nat) (s : AdmState)
    (h : Relation.ReflTransGen AdmStep (admInit k) s) :
    s.reqs.countP isProcessing = s.occupied ∧ s.occupied ≤ semCap ∧
      (∀ b, RPhase.doneShed b ∈ s.reqs → b = "server overload") := by
  induction h with
  | refl =>
    refine ⟨?_, by simp [admInit, semCap], ?_⟩
    · simp [admInit, countP_replicate_false isProcessing RPhase.racing rfl]
    · intro b hb
      simp [admInit, List.mem_replicate] at hb
  | tail _ hstep ih => exact admStep_inv _ _ hstep ih.1 ih.2.1 ih.2.2

/-- A deadline-blocked step is in particular an admission step. -/
theorem admStepNF_toStep (s s' : AdmState) (h : AdmStepNF s s') : AdmStep s s' := by
  cases h with
  | acquire i hi hc => exact AdmStep.acquire s i hi hc
  | shed i hi => exact AdmStep.shed s i hi

/-- A deadline-blocked step neither produces a done-ok request nor changes
the number of requests. -/
theorem admStepNF_extra (s s' : AdmState) (hstep : AdmStepNF s s')
    (h1 : s.reqs.countP isDoneOk = 0) :
    s'.reqs.countP isDoneOk = 0 ∧ s'.reqs.length = s.reqs.length := by
  cases hstep with
  | acquire i hi hc =>
    obtain ⟨hlen, hget⟩ := List.get?_eq_some.mp hi
    have hcount := countP_set_add isDoneOk s.reqs i RPhase.processing hlen
    rw [hget] at hcount
    simp [isDoneOk] at hcount
    refine ⟨?_, ?_⟩
    · show (s.reqs.set i RPhase.processing).countP isDoneOk = 0
      omega
    · show (s.reqs.set i RPhase.processing).length = s.reqs.length
      simp
  | shed i hi =>
    obtain ⟨hlen, hget⟩ := List.get?_eq_some.mp hi
    have hcount := countP_set_add isDoneOk s.reqs i
      (RPhase.doneShed "server overload") hlen
    rw [hget] at hcount
    simp [isDoneOk] at hcount
    refine ⟨?_, ?_⟩
    · show (s.reqs.set i (RPhase.doneShed "server overload")).countP isDoneOk = 0
      omega
    · show (s.reqs.set i (RPhase.doneShed "server overload")).length = s.reqs.length
      simp

/-- While every admitted request blocks past the deadline (no `finish`
steps), no request ever reaches the done-ok phase and the number of requests
is constant. -/
theorem admReachNF_extra (k : Nat) (s : AdmState)
    (h : Relation.ReflTransGen AdmStepNF (admInit k) s) :
    s.reqs.countP isDoneOk = 0 ∧ s.reqs.length = k := by
  induction h with
  | refl =>
    exact ⟨by simp [admInit, countP_replicate_false isDoneOk RPhase.racing rfl],
      by simp [admInit]⟩
  | tail _ hstep ih =>
    obtain ⟨e1, e2⟩ := admStepNF_extra _ _ hstep ih.1
    exact ⟨e1, by rw [e2]; exact ih.2⟩

/-- C9: with the capacity-5 permit pool, (a) in every reachable interleaving
of any number of concurrent requests, the number of requests concurrently
inside handler execution never exceeds 5 and always equals the number of
occupied permits (so every request that finished has released its permit —
release is unconditional because `safelyHandle` never lets a panic escape);
and (b) for more than 5 concurrent requests that all block past the shedding
deadline (no finish step), once every request has left the race at least one
of them has been shed with exactly the literal body `server overload`. -/
theorem c9_admission_bounds (k : Nat) (hk : semCap < k) :
    (∀ s, Relation.ReflTransGen AdmStep (admInit k) s →
      s.reqs.countP isProcessing ≤ semCap ∧
        s.reqs.countP isProcessing = s.occupied) ∧
    (∀ s, Relation.ReflTransGen AdmStepNF (admInit k) s →
      s.reqs.countP isRacing = 0 →
        RPhase.doneShed "server overload" ∈ s.reqs) := by
  constructor
  · intro s h
    obtain ⟨h1, h2, _⟩ := admReach_inv k s h
    exact ⟨by omega, h1⟩
  · intro s h hr
    obtain ⟨h1, h2, h3⟩ := admReach_inv k s
      (Relation.ReflTransGen.mono (fun a b hab => admStepNF_toStep a b hab) h)
    obtain ⟨h4, h5⟩ := admReachNF_extra k s h
    have hpart := phase_partition s.reqs
    have hshed : 0 < s.reqs.countP isShed := by omega
    obtain ⟨x, hxmem, hxp⟩ := List.countP_pos_iff.mp hshed
    cases x with
    | doneShed b =>
      have := h3 b hxmem
      rw [← this]
      exact hxmem
    | racing => simp [isShed] at hxp
    | processing => simp [isShed] at hxp
    | doneOk => simp [isShed] at hxp

/-- C9, witness: six concurrent requests; the invariant holds at the initial
state, and the no-finish run in which all six are shed ends with a request
holding the literal overload body. -/
theorem c9_admission_bounds_witness :
    ((admInit 6).reqs.countP isProcessing ≤ semCap ∧
      (admInit 6).reqs.countP isProcessing = (admInit 6).occupied) ∧
    RPhase.doneShed "server overload" ∈
      (⟨List.replicate 6 (RPhase.doneShed "server overload"), 0⟩ : AdmState).reqs := by
  constructor
  · exact (c9_admission_bounds 6 (by decide)).1 _ Relation.ReflTransGen.refl
  · refine (c9_admission_bounds 6 (by decide)).2
      ⟨List.replicate 6 (RPhase.doneShed "server overload"), 0⟩ ?_ (by decide)
    refine Relation.ReflTransGen.head (AdmStepNF.shed _ 0 (by decide)) ?_
    refine Relation.ReflTransGen.head (AdmStepNF.shed _ 1 (by decide)) ?_
    refine Relation.ReflTransGen.head (AdmStepNF.shed _ 2 (by decide)) ?_
    refine Relation.ReflTransGen.head (AdmStepNF.shed _ 3 (by decide)) ?_
    refine Relation.ReflTransGen.head (AdmStepNF.shed _ 4 (by decide)) ?_
    refine Relation.ReflTransGen.head (AdmStepNF.shed _ 5 (by decide)) ?_
    exact Relation.ReflTransGen.refl

end Goweb
